import Mathlib

/-!
Verification of the TinyUSB circular FIFO against its specification.

The repository provides the header src/src/common/tusb_fifo.h: the data
structure tu_fifo_t, the TU_FIFO_DEF initializer macro, the inline helpers
(tu_fifo_peek, tu_fifo_depth, tu_fifo_set_copy_mode_read,
tu_fifo_set_copy_mode_write) and the declared operation surface.  The
implementation file tusb_fifo.c is not part of the repository snapshot, so
the bodies of the declared operations are modelled from the specification
(see the individual doc comments), while everything present in the header
(struct fields, macro arithmetic, inline bodies, the documented contract of
the copy modes) is translated directly from the header.

Machine integers: the C indices are uint16_t values kept inside
the double range 0 .. 2*depth-1; they are modelled as Nat with explicit
reductions modulo 2*depth, and the TU_FIFO_DEF initializer arithmetic is
modelled with explicit reductions modulo 2^16. Items are modelled
abstractly as natural numbers; the byte buffer of the C code is modelled as
a total function from physical slot numbers to items, and a null buffer
pointer is modelled with Option.
-/

/-- One stored item. The C code moves item_size raw bytes per item; the
values themselves are opaque to the index engine, so items are modelled as
natural numbers. -/
abbrev Item := Nat

/-- Copy modes, from tusb_fifo.h lines 60 to 67. -/
inductive tu_fifo_copy_mode_t where
  | TU_FIFO_COPY_INC
  | TU_FIFO_COPY_CST
  deriving DecidableEq, Repr

open tu_fifo_copy_mode_t

/-- The FIFO state, from struct tu_fifo_t in tusb_fifo.h lines 72 to 92.
The byte buffer is modelled as a total function from physical slot index to
item. The field overflow_cond is modelled from the spec: the write path
"marks an overflow condition" when it discards data in overwritable mode,
and tu_fifo_overflowed reports it ("sticky-until-corrected"); the C header
does not show the mechanism because tusb_fifo.c is absent, so the condition
is carried as explicit ghost state. -/
structure tu_fifo_t where
  buffer : Nat → Item
  depth : Nat
  item_size : Nat
  overwritable : Bool
  non_used_index_space : Nat
  max_pointer_idx : Nat
  wr_idx : Nat
  rd_idx : Nat
  wr_mode : tu_fifo_copy_mode_t
  rd_mode : tu_fifo_copy_mode_t
  overflow_cond : Bool

/-- Value stored by TU_FIFO_DEF into max_pointer_idx (tusb_fifo.h line 101):
the C expression 2*_depth-1 truncated to uint16_t, written in Nat as
(2*depth + 65535) % 65536 (the two agree modulo 2^16 for every depth,
including depth = 0 where the C int expression is -1). -/
def fifoMaxPointerIdx (depth : Nat) : Nat := (2 * depth + 65535) % 65536

/-- Value stored by TU_FIFO_DEF into non_used_index_space (tusb_fifo.h
line 102): UINT16_MAX - (2*_depth-1) truncated to uint16_t. Because
fifoMaxPointerIdx depth is at most 65535, the truncated difference is the
plain Nat difference. -/
def fifoNonUsedIndexSpace (depth : Nat) : Nat := 65535 - fifoMaxPointerIdx depth

/-- The TU_FIFO_DEF macro, tusb_fifo.h lines 94 to 105: static buffer, the
given depth and item size truncated to uint16_t, the derived index-range
fields, both copy modes TU_FIFO_COPY_INC, and all remaining fields zero
initialized (C aggregate initialization). -/
def TU_FIFO_DEF (depth item_size : Nat) (overwritable : Bool) : tu_fifo_t :=
  { buffer := fun _ => 0
    depth := depth % 65536
    item_size := item_size % 65536
    overwritable := overwritable
    non_used_index_space := fifoNonUsedIndexSpace depth
    max_pointer_idx := fifoMaxPointerIdx depth
    wr_idx := 0
    rd_idx := 0
    wr_mode := TU_FIFO_COPY_INC
    rd_mode := TU_FIFO_COPY_INC
    overflow_cond := false }

/-- Modelled from the spec (tusb_fifo.c is absent): "Logical occupied count
= (write_index − read_index) reduced modulo 2*depth". With both indices in
0 .. 2*depth-1 the uint16_t subtraction of the C code agrees with this Nat
expression. -/
def tu_fifo_count (f : tu_fifo_t) : Nat :=
  (f.wr_idx + 2 * f.depth - f.rd_idx) % (2 * f.depth)

/-- Modelled from the spec (tusb_fifo.c is absent): "empty ⇔ occupied count
== 0"; the query reads only the two index fields, and the two indices agree
exactly when the count is zero. -/
def tu_fifo_empty (f : tu_fifo_t) : Bool :=
  f.wr_idx == f.rd_idx

/-- Modelled from the spec (tusb_fifo.c is absent): "full ⇔ occupied count
== depth". -/
def tu_fifo_full (f : tu_fifo_t) : Bool :=
  tu_fifo_count f == f.depth

/-- Modelled from the spec (tusb_fifo.c is absent): "remaining() = depth -
count()". -/
def tu_fifo_remaining (f : tu_fifo_t) : Nat :=
  f.depth - tu_fifo_count f

/-- Modelled from the spec (tusb_fifo.c is absent): overflowed reports data
loss: the overflow condition marked by an overwriting write, or a count
driven beyond depth by a direct external move of the write index. -/
def tu_fifo_overflowed (f : tu_fifo_t) : Bool :=
  f.overflow_cond || decide (f.depth < tu_fifo_count f)

/-- From the inline body in tusb_fifo.h lines 155 to 158. -/
def tu_fifo_depth (f : tu_fifo_t) : Nat :=
  f.depth

/-- From the inline body in tusb_fifo.h lines 161 to 164: stores the given
mode into rd_mode. Per the header comment on line 160, rd_mode determines
how the pointer read from is modified when writing into the FIFO by
tu_fifo_write_n. -/
def tu_fifo_set_copy_mode_read (f : tu_fifo_t) (rd_mode : tu_fifo_copy_mode_t) : tu_fifo_t :=
  { f with rd_mode := rd_mode }

/-- From the inline body in tusb_fifo.h lines 167 to 170: stores the given
mode into wr_mode. Per the header comment on line 166, wr_mode determines
how the pointer written to is modified when reading from the FIFO by
tu_fifo_read_n or tu_fifo_peek_n. -/
def tu_fifo_set_copy_mode_write (f : tu_fifo_t) (wr_mode : tu_fifo_copy_mode_t) : tu_fifo_t :=
  { f with wr_mode := wr_mode }

/-- Modelled from the spec (tusb_fifo.c is absent): clear "resets both
indices to 0 without touching storage contents; always succeeds". It also
retires any marked overflow condition, the state being empty afterwards. -/
def tu_fifo_clear (f : tu_fifo_t) : Bool × tu_fifo_t :=
  (true, { f with wr_idx := 0, rd_idx := 0, overflow_cond := false })

/-- Modelled from the spec (tusb_fifo.c is absent): set_overwritable
"changes policy; fails if depth is 0 (unconfigured instance)". -/
def tu_fifo_set_overwritable (f : tu_fifo_t) (overwritable : Bool) : Bool × tu_fifo_t :=
  if f.depth = 0 then (false, f) else (true, { f with overwritable := overwritable })

/-- Modelled from the spec (tusb_fifo.c is absent): config "replaces
storage and resets both indices to 0. Fails (returns false) if buffer is
null, depth is 0, or item_size is 0", and on failure "no partial
configuration is left in place". A null buffer pointer is the none case.
The index-range fields are derived exactly as in TU_FIFO_DEF. -/
def tu_fifo_config (f : tu_fifo_t) (buffer : Option (Nat → Item))
    (depth item_size : Nat) (overwritable : Bool) : Bool × tu_fifo_t :=
  match buffer with
  | none => (false, f)
  | some b =>
    if depth = 0 ∨ item_size = 0 then (false, f)
    else
      (true,
       { buffer := b
         depth := depth
         item_size := item_size
         overwritable := overwritable
         non_used_index_space := fifoNonUsedIndexSpace depth
         max_pointer_idx := fifoMaxPointerIdx depth
         wr_idx := 0
         rd_idx := 0
         wr_mode := f.wr_mode
         rd_mode := f.rd_mode
         overflow_cond := false })

/-- Modelled from the spec (tusb_fifo.c is absent): the unconditional
single-item push of the write path: store the item at physical slot
write_index mod depth and advance the write index by one inside the double
range 0 .. 2*depth-1. -/
def ff_push (f : tu_fifo_t) (x : Item) : tu_fifo_t :=
  { f with
    buffer := fun j => if j = f.wr_idx % f.depth then x else f.buffer j
    wr_idx := (f.wr_idx + 1) % (2 * f.depth) }

/-- Modelled from the spec (tusb_fifo.c is absent): write "appends exactly
one item. If full and non-overwritable, fails without modifying state. If
full and overwritable, advances the read index by one slot (discarding the
oldest item) before appending, and marks an overflow condition. Always
advances the write index by one on success." -/
def tu_fifo_write (f : tu_fifo_t) (x : Item) : Bool × tu_fifo_t :=
  if tu_fifo_count f = f.depth then
    if f.overwritable then
      (true,
       ff_push
         { f with rd_idx := (f.rd_idx + 1) % (2 * f.depth), overflow_cond := true } x)
    else (false, f)
  else (true, ff_push f x)

/-- Source address used for the i-th element of a batch write: an
incrementing source advances through successive addresses, a constant
source stays at address 0. -/
def srcAddr (m : tu_fifo_copy_mode_t) (i : Nat) : Nat :=
  match m with
  | TU_FIFO_COPY_INC => i
  | TU_FIFO_COPY_CST => 0

/-- Modelled from the spec (tusb_fifo.c is absent): write_n appends up to n
items by iterating the single-item write (partial writes if
non-overwritable and full, all n items if overwritable) and returns the
number actually written. The source is a function from source addresses to
items; per the header comment on tusb_fifo.h line 160, rd_mode determines
how the source address is advanced. -/
def tu_fifo_write_n (f : tu_fifo_t) (src : Nat → Item) (n : Nat) : Nat × tu_fifo_t :=
  (List.range n).foldl
    (fun acc i =>
      ((if (tu_fifo_write acc.2 (src (srcAddr f.rd_mode i))).1 then acc.1 + 1 else acc.1),
       (tu_fifo_write acc.2 (src (srcAddr f.rd_mode i))).2))
    (0, f)

/-- Modelled from the spec (tusb_fifo.c is absent): read "removes and
returns the oldest item. Fails if empty, without modifying state." The item
is taken from physical slot read_index mod depth and the read index
advances by one inside the double range. -/
def tu_fifo_read (f : tu_fifo_t) : Option Item × tu_fifo_t :=
  if tu_fifo_count f = 0 then (none, f)
  else
    (some (f.buffer (f.rd_idx % f.depth)),
     { f with rd_idx := (f.rd_idx + 1) % (2 * f.depth) })

/-- Modelled from the spec (tusb_fifo.c is absent): read_n "removes up to n
oldest items ... returns the actual number removed (min(n, count()))",
iterated from the single-item read. The removed items are returned as a
list in removal order; per the header comment on tusb_fifo.h line 166,
wr_mode only selects how the destination address advances while these
values are delivered, which is outside this value-level model. -/
def tu_fifo_read_n (f : tu_fifo_t) (n : Nat) : List Item × tu_fifo_t :=
  match n with
  | 0 => ([], f)
  | Nat.succ m =>
    match tu_fifo_read f with
    | (none, f2) => ([], f2)
    | (some x, f2) =>
      let r := tu_fifo_read_n f2 m
      (x :: r.1, r.2)

/-- Modelled from the spec (tusb_fifo.c is absent): peek_at "copies the
item that is offset positions ahead of the oldest unread item, without
modifying indices. Fails if offset ≥ count()." The state is untouched, so
only the copied value is returned. -/
def tu_fifo_peek_at (f : tu_fifo_t) (pos : Nat) : Option Item :=
  if pos < tu_fifo_count f then some (f.buffer ((f.rd_idx + pos) % f.depth)) else none

/-- From the inline body in tusb_fifo.h lines 150 to 153: peek delegates to
peek_at with position 0. -/
def tu_fifo_peek (f : tu_fifo_t) : Option Item :=
  tu_fifo_peek_at f 0

/-- Modelled from the spec (tusb_fifo.c is absent): get_linear_read_info
returns a pointer into the live buffer and the largest contiguous run of
items (at most the requested n) available starting offset items past the
oldest one, before the circular buffer wraps. The pointer is modelled as
the physical start slot; the C pointer is buffer plus that slot times
item_size. -/
def tu_fifo_get_linear_read_info (f : tu_fifo_t) (offset n : Nat) : Nat × Nat :=
  let cnt := tu_fifo_count f
  let s := (f.rd_idx + offset) % f.depth
  if cnt ≤ offset then (s, 0)
  else (s, min (min n (cnt - offset)) (f.depth - s))

/-- Modelled from the spec (tusb_fifo.c is absent): get_linear_write_info
is the mirror of get_linear_read_info for the free space starting offset
items past the write position. -/
def tu_fifo_get_linear_write_info (f : tu_fifo_t) (offset n : Nat) : Nat × Nat :=
  let rem := tu_fifo_remaining f
  let s := (f.wr_idx + offset) % f.depth
  if rem ≤ offset then (s, 0)
  else (s, min (min n (rem - offset)) (f.depth - s))

/-- Modelled from the spec (tusb_fifo.c is absent): raw unchecked advance
of the write index, for DMA coordination. -/
def tu_fifo_advance_write_pointer (f : tu_fifo_t) (n : Nat) : tu_fifo_t :=
  { f with wr_idx := (f.wr_idx + n) % (2 * f.depth) }

/-- Modelled from the spec (tusb_fifo.c is absent): raw unchecked advance
of the read index, for DMA coordination. -/
def tu_fifo_advance_read_pointer (f : tu_fifo_t) (n : Nat) : tu_fifo_t :=
  { f with rd_idx := (f.rd_idx + n) % (2 * f.depth) }

/-- Modelled from the spec (tusb_fifo.c is absent): correct_read_pointer
reconciles the read index so that the count does not report more than
depth items, and retires the marked overflow condition. -/
def tu_fifo_correct_read_pointer (f : tu_fifo_t) : tu_fifo_t :=
  if f.depth < tu_fifo_count f then
    { f with
      rd_idx := (f.wr_idx + 2 * f.depth - f.depth) % (2 * f.depth)
      overflow_cond := false }
  else { f with overflow_cond := false }

/-! Modular arithmetic of the double-range index scheme. -/

lemma count_char (d wr rd : Nat) (hw : wr < 2 * d) (hr : rd < 2 * d) :
    (wr + 2 * d - rd) % (2 * d) = if rd ≤ wr then wr - rd else wr + 2 * d - rd := by
  rcases le_or_lt rd wr with h | h
  · have h1 : wr + 2 * d - rd = (wr - rd) + 2 * d := by omega
    rw [h1, Nat.add_mod_right, Nat.mod_eq_of_lt (by omega), if_pos h]
  · rw [if_neg (by omega), Nat.mod_eq_of_lt (by omega)]

lemma count_of_wr (d rd c : Nat) (hrd : rd < 2 * d) (hc : c < 2 * d) :
    ((rd + c) % (2 * d) + 2 * d - rd) % (2 * d) = c := by
  rcases Nat.lt_or_ge (rd + c) (2 * d) with h | h
  · rw [Nat.mod_eq_of_lt h]
    have h1 : rd + c + 2 * d - rd = c + 2 * d := by omega
    rw [h1, Nat.add_mod_right, Nat.mod_eq_of_lt hc]
  · have h2 : (rd + c) % (2 * d) = rd + c - 2 * d := by
      rw [Nat.mod_eq_sub_mod h, Nat.mod_eq_of_lt (by omega)]
    have h1 : rd + c - 2 * d + 2 * d - rd = c := by omega
    rw [h2, h1, Nat.mod_eq_of_lt hc]

lemma wr_eq_rd_add_count (d wr rd : Nat) (hw : wr < 2 * d) (hr : rd < 2 * d) :
    (rd + (wr + 2 * d - rd) % (2 * d)) % (2 * d) = wr := by
  rcases le_or_lt rd wr with h | h
  · have h1 : wr + 2 * d - rd = (wr - rd) + 2 * d := by omega
    rw [h1, Nat.add_mod_right, Nat.mod_eq_of_lt (show wr - rd < 2 * d by omega)]
    have h2 : rd + (wr - rd) = wr := by omega
    rw [h2, Nat.mod_eq_of_lt hw]
  · rw [Nat.mod_eq_of_lt (show wr + 2 * d - rd < 2 * d by omega)]
    have h2 : rd + (wr + 2 * d - rd) = wr + 2 * d := by omega
    rw [h2, Nat.add_mod_right, Nat.mod_eq_of_lt hw]

lemma add_mod_left_reduce (a b d k : Nat) (hdvd : d ∣ k) :
    (a % k + b) % d = (a + b) % d := by
  conv_lhs => rw [Nat.add_mod]
  rw [Nat.mod_mod_of_dvd a hdvd, ← Nat.add_mod]

/-! List access helpers, stated for the default-valued getter used by the
abstract queue. -/

lemma getD_cons_zero (a : Item) (l : List Item) : (a :: l).getD 0 0 = a := rfl

lemma getD_cons_succ (a : Item) (l : List Item) (i : Nat) :
    (a :: l).getD (i + 1) 0 = l.getD i 0 := rfl

lemma getD_append_left (l l2 : List Item) (i : Nat) (h : i < l.length) :
    (l ++ l2).getD i 0 = l.getD i 0 := by
  induction l generalizing i with
  | nil => simp at h
  | cons a t ih =>
    cases i with
    | zero => rfl
    | succ i =>
      rw [List.cons_append, getD_cons_succ, getD_cons_succ]
      exact ih i (by simpa using h)

lemma getD_append_length (l : List Item) (x : Item) :
    (l ++ [x]).getD l.length 0 = x := by
  induction l with
  | nil => rfl
  | cons a t ih => rw [List.cons_append, List.length_cons, getD_cons_succ]; exact ih

lemma getD_tail (l : List Item) (i : Nat) (h : l ≠ []) :
    l.tail.getD i 0 = l.getD (i + 1) 0 := by
  cases l with
  | nil => exact absurd rfl h
  | cons a t => rfl

/-! The representation invariant: a configured FIFO state f holds the
abstract queue q (oldest item first) when the indices sit in the double
range, the write index is the read index advanced by the queue length, and
the queue entries sit in the physical slots starting at the read
position. -/

def fifoRep (f : tu_fifo_t) (q : List Item) : Prop :=
  0 < f.depth ∧ f.rd_idx < 2 * f.depth ∧ q.length ≤ f.depth ∧
  f.wr_idx = (f.rd_idx + q.length) % (2 * f.depth) ∧
  ∀ i, i < q.length → q.getD i 0 = f.buffer ((f.rd_idx + i) % f.depth)

lemma fifoRep_count (f : tu_fifo_t) (q : List Item) (h : fifoRep f q) :
    tu_fifo_count f = q.length := by
  obtain ⟨hd, hr, hq, hw, _⟩ := h
  rw [tu_fifo_count, hw, count_of_wr f.depth f.rd_idx q.length hr (by omega)]

lemma fifoRep_wr_lt (f : tu_fifo_t) (q : List Item) (h : fifoRep f q) :
    f.wr_idx < 2 * f.depth := by
  obtain ⟨hd, hr, hq, hw, _⟩ := h
  rw [hw]
  exact Nat.mod_lt _ (by omega)

lemma slot_reduce (a b d : Nat) : (a % (2 * d) + b) % d = (a + b) % d :=
  add_mod_left_reduce a b d (2 * d) (dvd_mul_left d 2)

lemma slot_ne_of_lt (d r i L : Nat) (hd : 0 < d) (hi : i < L) (hL : L ≤ d)
    (h0 : 0 < i ∨ L < d) : (r + i) % d ≠ (r + L) % d := by
  intro hcontra
  have h1 : i % d = L % d := Nat.ModEq.add_left_cancel' r hcontra
  rcases Nat.lt_or_ge L d with h | h
  · rw [Nat.mod_eq_of_lt (show i < d by omega), Nat.mod_eq_of_lt h] at h1
    omega
  · have hLd : L = d := by omega
    subst hLd
    rw [Nat.mod_eq_of_lt (show i < L by omega), Nat.mod_self] at h1
    omega

/-- Effect of a single write on a non-full FIFO: it succeeds and appends
the item to the abstract queue. -/
lemma fifoRep_write (f : tu_fifo_t) (q : List Item) (x : Item)
    (h : fifoRep f q) (hlt : q.length < f.depth) :
    tu_fifo_write f x = (true, ff_push f x) ∧ fifoRep (ff_push f x) (q ++ [x]) := by
  obtain ⟨hd, hr, hq, hw, hbuf⟩ := h
  have hcnt : tu_fifo_count f = q.length := fifoRep_count f q ⟨hd, hr, hq, hw, hbuf⟩
  constructor
  · rw [tu_fifo_write, if_neg (by omega)]
  · refine ⟨hd, hr, by simpa using hlt, ?_, ?_⟩
    · show (f.wr_idx + 1) % (2 * f.depth) = (f.rd_idx + (q ++ [x]).length) % (2 * f.depth)
      rw [hw, Nat.mod_add_mod, List.length_append, List.length_singleton, Nat.add_assoc]
    · intro i hi
      have hwslot : f.wr_idx % f.depth = (f.rd_idx + q.length) % f.depth := by
        rw [hw, Nat.mod_mod_of_dvd _ (dvd_mul_left f.depth 2)]
      show (q ++ [x]).getD i 0 =
        (if (f.rd_idx + i) % f.depth = f.wr_idx % f.depth then x
         else f.buffer ((f.rd_idx + i) % f.depth))
      rw [List.length_append, List.length_singleton] at hi
      rcases Nat.lt_or_ge i q.length with hlt2 | hge
      · rw [hwslot,
          if_neg (slot_ne_of_lt f.depth f.rd_idx i q.length hd hlt2 (by omega) (Or.inr hlt)),
          getD_append_left q [x] i hlt2]
        exact hbuf i hlt2
      · have hieq : i = q.length := by omega
        subst hieq
        rw [hwslot, if_pos rfl, getD_append_length]

/-- Effect of a single write on a full overwritable FIFO: it succeeds,
marks the overflow condition, discards the oldest item and appends the new
one. -/
lemma fifoRep_write_full_ow (f : tu_fifo_t) (q : List Item) (x : Item)
    (h : fifoRep f q) (heq : q.length = f.depth) (how : f.overwritable = true) :
    tu_fifo_write f x =
      (true,
       ff_push
         { f with rd_idx := (f.rd_idx + 1) % (2 * f.depth), overflow_cond := true } x) ∧
    fifoRep (tu_fifo_write f x).2 (q.tail ++ [x]) := by
  obtain ⟨hd, hr, hq, hw, hbuf⟩ := h
  have hcnt : tu_fifo_count f = q.length := fifoRep_count f q ⟨hd, hr, hq, hw, hbuf⟩
  have hqne : q ≠ [] := by
    intro hnil
    rw [hnil] at heq
    simp at heq
    omega
  have hfirst : tu_fifo_write f x =
      (true,
       ff_push
         { f with rd_idx := (f.rd_idx + 1) % (2 * f.depth), overflow_cond := true } x) := by
    rw [tu_fifo_write, if_pos (by omega), how, if_pos rfl]
  refine ⟨hfirst, ?_⟩
  rw [hfirst]
  have hlen : (q.tail ++ [x]).length = f.depth := by
    rw [List.length_append, List.length_tail, List.length_singleton]
    omega
  have hwslot : f.wr_idx % f.depth = (f.rd_idx + q.length) % f.depth := by
    rw [hw, Nat.mod_mod_of_dvd _ (dvd_mul_left f.depth 2)]
  refine ⟨?_, ?_, ?_, ?_, ?_⟩
  · show 0 < f.depth
    exact hd
  · show (f.rd_idx + 1) % (2 * f.depth) < 2 * f.depth
    exact Nat.mod_lt _ (by omega)
  · show (q.tail ++ [x]).length ≤ f.depth
    omega
  · show (f.wr_idx + 1) % (2 * f.depth) =
      ((f.rd_idx + 1) % (2 * f.depth) + (q.tail ++ [x]).length) % (2 * f.depth)
    rw [hlen, hw, Nat.mod_add_mod, Nat.mod_add_mod]
    congr 1
    omega
  · intro i hi
    rw [hlen] at hi
    show (q.tail ++ [x]).getD i 0 =
      (if ((f.rd_idx + 1) % (2 * f.depth) + i) % f.depth = f.wr_idx % f.depth then x
       else f.buffer (((f.rd_idx + 1) % (2 * f.depth) + i) % f.depth))
    rw [slot_reduce, Nat.add_assoc, hwslot, heq]
    rcases Nat.lt_or_ge i (f.depth - 1) with hlt2 | hge
    · rw [if_neg
        (slot_ne_of_lt f.depth f.rd_idx (1 + i) f.depth hd (by omega) (by omega)
          (Or.inl (by omega))),
        getD_append_left q.tail [x] i (by rw [List.length_tail]; omega)]
      rw [getD_tail q i hqne]
      have h2 : f.rd_idx + (1 + i) = f.rd_idx + (i + 1) := by omega
      rw [h2]
      exact hbuf (i + 1) (by omega)
    · have hieq : i = f.depth - 1 := by omega
      subst hieq
      have h3 : 1 + (f.depth - 1) = f.depth := by omega
      rw [h3, if_pos rfl]
      have h4 : f.depth - 1 = q.tail.length := by rw [List.length_tail]; omega
      rw [h4, getD_append_length]

/-- Effect of a single write on a full non-overwritable FIFO: it fails and
leaves the state untouched. -/
lemma fifoRep_write_full_no (f : tu_fifo_t) (q : List Item) (x : Item)
    (h : fifoRep f q) (heq : q.length = f.depth) (how : f.overwritable = false) :
    tu_fifo_write f x = (false, f) := by
  have hcnt : tu_fifo_count f = q.length := fifoRep_count f q h
  rw [tu_fifo_write, if_pos (by omega), how]
  simp

/-- Effect of a single read on a nonempty FIFO: it returns the oldest item
and removes it from the abstract queue. -/
lemma fifoRep_read (f : tu_fifo_t) (q : List Item)
    (h : fifoRep f q) (hne : q ≠ []) :
    tu_fifo_read f =
      (some (q.getD 0 0), { f with rd_idx := (f.rd_idx + 1) % (2 * f.depth) }) ∧
    fifoRep { f with rd_idx := (f.rd_idx + 1) % (2 * f.depth) } q.tail := by
  obtain ⟨hd, hr, hq, hw, hbuf⟩ := h
  have hcnt : tu_fifo_count f = q.length := fifoRep_count f q ⟨hd, hr, hq, hw, hbuf⟩
  have hlen : 0 < q.length := List.length_pos.mpr hne
  constructor
  · rw [tu_fifo_read, if_neg (by omega)]
    have hval : f.buffer (f.rd_idx % f.depth) = q.getD 0 0 := by
      have h0 := hbuf 0 hlen
      rw [Nat.add_zero] at h0
      exact h0.symm
    rw [hval]
  · refine ⟨?_, ?_, ?_, ?_, ?_⟩
    · show 0 < f.depth
      exact hd
    · show (f.rd_idx + 1) % (2 * f.depth) < 2 * f.depth
      exact Nat.mod_lt _ (by omega)
    · show q.tail.length ≤ f.depth
      rw [List.length_tail]
      omega
    · show f.wr_idx = ((f.rd_idx + 1) % (2 * f.depth) + q.tail.length) % (2 * f.depth)
      rw [List.length_tail, hw, Nat.mod_add_mod]
      congr 1
      omega
    · intro i hi
      rw [List.length_tail] at hi
      show q.tail.getD i 0 = f.buffer (((f.rd_idx + 1) % (2 * f.depth) + i) % f.depth)
      rw [slot_reduce, Nat.add_assoc, getD_tail q i hne]
      have h2 : 1 + i = i + 1 := by omega
      rw [h2]
      exact hbuf (i + 1) (by omega)

/-- Effect of a single read on an empty FIFO: it fails and leaves the state
untouched. -/
lemma fifoRep_read_empty (f : tu_fifo_t) (h : tu_fifo_count f = 0) :
    tu_fifo_read f = (none, f) := by
  rw [tu_fifo_read, if_pos h]

/-- Clearing yields the empty abstract queue. -/
lemma fifoRep_clear (f : tu_fifo_t) (q : List Item) (h : fifoRep f q) :
    fifoRep (tu_fifo_clear f).2 [] := by
  obtain ⟨hd, _, _, _, _⟩ := h
  refine ⟨?_, ?_, ?_, ?_, ?_⟩
  · show 0 < f.depth
    exact hd
  · show (0 : Nat) < 2 * f.depth
    omega
  · show List.length ([] : List Item) ≤ f.depth
    simp
  · show (0 : Nat) = (0 + List.length ([] : List Item)) % (2 * f.depth)
    simp
  · intro i hi
    simp at hi

/-- A successful configuration yields the empty abstract queue. -/
lemma fifoRep_config (f f2 : tu_fifo_t) (b : Nat → Item) (depth item_size : Nat)
    (ow : Bool) (h : tu_fifo_config f (some b) depth item_size ow = (true, f2)) :
    fifoRep f2 [] := by
  rw [tu_fifo_config] at h
  by_cases hz : depth = 0 ∨ item_size = 0
  · rw [if_pos hz] at h
    exact absurd (congrArg Prod.fst h) (by simp)
  · rw [if_neg hz] at h
    have hdz : depth ≠ 0 := fun hh => hz (Or.inl hh)
    have h2 := congrArg Prod.snd h
    simp only at h2
    rw [← h2]
    refine ⟨?_, ?_, ?_, ?_, ?_⟩
    · show 0 < depth
      omega
    · show (0 : Nat) < 2 * depth
      omega
    · show List.length ([] : List Item) ≤ depth
      simp
    · show (0 : Nat) = (0 + List.length ([] : List Item)) % (2 * depth)
      simp
    · intro i hi
      simp at hi

/-! Sequences of single-item writes and reads, for the FIFO-ordering
claim. -/

/-- One step of a client trace: a single-item write of a given item, or a
single-item read. -/
inductive FifoOp where
  | opWrite (x : Item)
  | opRead
  deriving DecidableEq, Repr

/-- Run a trace of single-item writes and reads against the FIFO,
collecting the items returned by the successful reads in order. -/
def runFifo : tu_fifo_t → List FifoOp → List Item × tu_fifo_t
  | f, [] => ([], f)
  | f, FifoOp.opWrite x :: rest => runFifo (tu_fifo_write f x).2 rest
  | f, FifoOp.opRead :: rest =>
    match tu_fifo_read f with
    | (none, f2) => runFifo f2 rest
    | (some y, f2) => (y :: (runFifo f2 rest).1, (runFifo f2 rest).2)

/-- A trace is legal for a FIFO of the given depth when, tracking only the
number of outstanding (written but not yet read) items, no write occurs
with depth items already outstanding and no read occurs with none
outstanding: the number of outstanding items never exceeds depth and the
reads consume written items. -/
def legalB (dep : Nat) : Nat → List FifoOp → Bool
  | _, [] => true
  | k, FifoOp.opWrite _ :: rest => decide (k < dep) && legalB dep (k + 1) rest
  | k, FifoOp.opRead :: rest => decide (0 < k) && legalB dep (k - 1) rest

/-- The items written by a trace, in the order they are written. -/
def writtenItems : List FifoOp → List Item
  | [] => []
  | FifoOp.opWrite x :: rest => x :: writtenItems rest
  | FifoOp.opRead :: rest => writtenItems rest

/-- Number of writes in a trace. -/
def numWrites : List FifoOp → Nat
  | [] => 0
  | FifoOp.opWrite _ :: rest => numWrites rest + 1
  | FifoOp.opRead :: rest => numWrites rest

/-- Number of reads in a trace. -/
def numReads : List FifoOp → Nat
  | [] => 0
  | FifoOp.opWrite _ :: rest => numReads rest
  | FifoOp.opRead :: rest => numReads rest + 1

lemma writtenItems_length (ops : List FifoOp) :
    (writtenItems ops).length = numWrites ops := by
  induction ops with
  | nil => rfl
  | cons op rest ih =>
    cases op with
    | opWrite x => simp [writtenItems, numWrites, ih]
    | opRead => simp [writtenItems, numWrites, ih]

/-- Simulation of a legal trace: the concrete runFifo outputs exactly the
stream prefix that the abstract queue discipline delivers, and the final
state again represents the remaining stream suffix. -/
lemma runFifo_rep (ops : List FifoOp) : ∀ (f : tu_fifo_t) (q : List Item),
    fifoRep f q → legalB f.depth q.length ops = true →
    (runFifo f ops).1 = (q ++ writtenItems ops).take (numReads ops) ∧
    fifoRep (runFifo f ops).2 ((q ++ writtenItems ops).drop (numReads ops)) := by
  induction ops with
  | nil =>
    intro f q hrep _
    refine ⟨rfl, ?_⟩
    show fifoRep f _
    simpa [writtenItems, numReads] using hrep
  | cons op rest ih =>
    intro f q hrep hleg
    cases op with
    | opWrite x =>
      rw [legalB, Bool.and_eq_true, decide_eq_true_eq] at hleg
      obtain ⟨hk, hrest⟩ := hleg
      obtain ⟨hw1, hw2⟩ := fifoRep_write f q x hrep hk
      have hstep : runFifo f (FifoOp.opWrite x :: rest) = runFifo (ff_push f x) rest := by
        rw [runFifo, hw1]
      have hleg2 : legalB (ff_push f x).depth (q ++ [x]).length rest = true := by
        show legalB f.depth (q ++ [x]).length rest = true
        rw [List.length_append, List.length_singleton]
        exact hrest
      have hih := ih (ff_push f x) (q ++ [x]) hw2 hleg2
      rw [hstep, writtenItems, numReads]
      have hassoc : (q ++ [x]) ++ writtenItems rest = q ++ (x :: writtenItems rest) := by
        rw [List.append_assoc, List.singleton_append]
      rw [hassoc] at hih
      exact hih
    | opRead =>
      rw [legalB, Bool.and_eq_true, decide_eq_true_eq] at hleg
      obtain ⟨hk, hrest⟩ := hleg
      cases q with
      | nil => simp at hk
      | cons y t =>
        obtain ⟨hr1, hr2⟩ := fifoRep_read f (y :: t) hrep (List.cons_ne_nil y t)
        have hstep : runFifo f (FifoOp.opRead :: rest) =
            (y :: (runFifo { f with rd_idx := (f.rd_idx + 1) % (2 * f.depth) } rest).1,
             (runFifo { f with rd_idx := (f.rd_idx + 1) % (2 * f.depth) } rest).2) := by
          rw [runFifo, hr1]
          rfl
        have hleg2 : legalB { f with rd_idx := (f.rd_idx + 1) % (2 * f.depth) }.depth
            (List.tail (y :: t)).length rest = true := by
          show legalB f.depth t.length rest = true
          simpa using hrest
        have hih := ih { f with rd_idx := (f.rd_idx + 1) % (2 * f.depth) }
          (List.tail (y :: t)) hr2 hleg2
        rw [hstep, writtenItems, numReads]
        rw [List.tail_cons] at hih
        constructor
        · rw [List.cons_append, List.take_succ_cons, hih.1]
        · rw [List.cons_append, List.drop_succ_cons]
          exact hih.2

/-! Reachability by the state-changing query-free operations named in the
invariants section of the spec: single-item write, single-item read, and
clear. The peek operations return a value and no modified state in this
embedding, so they need no step constructor. -/

/-- g is reachable from f by tu_fifo_write, tu_fifo_read and tu_fifo_clear
steps (tu_fifo_peek and tu_fifo_peek_at do not modify the state). -/
inductive Reached : tu_fifo_t → tu_fifo_t → Prop where
  | refl (f : tu_fifo_t) : Reached f f
  | wstep (f g : tu_fifo_t) (x : Item) : Reached f g → Reached f (tu_fifo_write g x).2
  | rstep (f g : tu_fifo_t) : Reached f g → Reached f (tu_fifo_read g).2
  | cstep (f g : tu_fifo_t) : Reached f g → Reached f (tu_fifo_clear g).2

/-- Every state reachable from a represented state is represented by some
abstract queue. -/
lemma Reached_rep (f g : tu_fifo_t) (hR : Reached f g) :
    (∃ q, fifoRep f q) → ∃ q, fifoRep g q := by
  induction hR with
  | refl => exact id
  | wstep g x hR ih =>
    intro h
    obtain ⟨q, hq⟩ := ih h
    rcases Nat.lt_or_ge q.length g.depth with hlt | hge
    · obtain ⟨h1, h2⟩ := fifoRep_write g q x hq hlt
      refine ⟨q ++ [x], ?_⟩
      rw [h1]
      exact h2
    · have heq : q.length = g.depth := by
        have := hq.2.2.1
        omega
      cases how : g.overwritable with
      | false =>
        rw [fifoRep_write_full_no g q x hq heq how]
        exact ⟨q, hq⟩
      | true =>
        obtain ⟨h1, h2⟩ := fifoRep_write_full_ow g q x hq heq how
        exact ⟨q.tail ++ [x], h2⟩
  | rstep g hR ih =>
    intro h
    obtain ⟨q, hq⟩ := ih h
    cases q with
    | nil =>
      rw [fifoRep_read_empty g (by simpa using fifoRep_count g [] hq)]
      exact ⟨[], hq⟩
    | cons y t =>
      obtain ⟨h1, h2⟩ := fifoRep_read g (y :: t) hq (List.cons_ne_nil y t)
      refine ⟨t, ?_⟩
      rw [h1]
      exact h2
  | cstep g hR ih =>
    intro h
    obtain ⟨q, hq⟩ := ih h
    exact ⟨[], fifoRep_clear g q hq⟩

/-! Batch writes: counting fold over the single-item write, and the
abstract effect of one overwriting push on the queue. -/

/-- Counting iteration of the single-item write over a list of items. -/
def writeCount : tu_fifo_t → List Item → Nat × tu_fifo_t
  | f, [] => (0, f)
  | f, x :: xs =>
    ((if (tu_fifo_write f x).1 then 1 else 0) + (writeCount (tu_fifo_write f x).2 xs).1,
     (writeCount (tu_fifo_write f x).2 xs).2)

lemma write_n_go (src : Nat → Item) (m : tu_fifo_copy_mode_t) (l : List Nat) :
    ∀ (k : Nat) (f : tu_fifo_t),
    l.foldl
      (fun acc i =>
        ((if (tu_fifo_write acc.2 (src (srcAddr m i))).1 then acc.1 + 1 else acc.1),
         (tu_fifo_write acc.2 (src (srcAddr m i))).2)) (k, f)
      = (k + (writeCount f (l.map (fun i => src (srcAddr m i)))).1,
         (writeCount f (l.map (fun i => src (srcAddr m i)))).2) := by
  induction l with
  | nil =>
    intro k f
    simp [writeCount]
  | cons i l ih =>
    intro k f
    rw [List.foldl_cons, ih, List.map_cons]
    rw [Prod.mk.injEq]
    constructor
    · show (if (tu_fifo_write f (src (srcAddr m i))).1 then k + 1 else k)
          + (writeCount (tu_fifo_write f (src (srcAddr m i))).2
              (l.map (fun j => src (srcAddr m j)))).1
        = k + (writeCount f (src (srcAddr m i) :: l.map (fun j => src (srcAddr m j)))).1
      rw [writeCount]
      cases (tu_fifo_write f (src (srcAddr m i))).1 <;> simp
      omega
    · rfl

/-- tu_fifo_write_n is the counting fold of the single-item write over the
items fetched through the source addressing selected by rd_mode. -/
lemma write_n_eq_writeCount (f : tu_fifo_t) (src : Nat → Item) (n : Nat) :
    tu_fifo_write_n f src n
      = writeCount f ((List.range n).map (fun i => src (srcAddr f.rd_mode i))) := by
  rw [tu_fifo_write_n, write_n_go src f.rd_mode (List.range n) 0 f, Nat.zero_add]

/-- Abstract effect of one overwriting push: append, discarding the oldest
item when the queue is at capacity. -/
def owPush (dep : Nat) (q : List Item) (x : Item) : List Item :=
  if q.length < dep then q ++ [x] else q.tail ++ [x]

/-- A batch write on an overwritable FIFO writes every item: the count is
the full batch length, the resulting state represents the owPush fold of
the queue, and the overflow condition ends up marked exactly when the batch
overran the capacity. -/
lemma writeCount_ow (xs : List Item) : ∀ (f : tu_fifo_t) (q : List Item),
    fifoRep f q → f.overwritable = true →
    (writeCount f xs).1 = xs.length ∧
    fifoRep (writeCount f xs).2 (List.foldl (owPush f.depth) q xs) ∧
    (writeCount f xs).2.overflow_cond
      = (f.overflow_cond || decide (f.depth < q.length + xs.length)) ∧
    (writeCount f xs).2.depth = f.depth ∧
    (writeCount f xs).2.overwritable = true ∧
    (writeCount f xs).2.rd_mode = f.rd_mode := by
  induction xs with
  | nil =>
    intro f q hrep how
    have hlen := hrep.2.2.1
    have hnot : ¬ (f.depth < q.length + List.length ([] : List Item)) := by
      simp
      omega
    refine ⟨rfl, by simpa [writeCount] using hrep, ?_, rfl, how, rfl⟩
    show f.overflow_cond = (f.overflow_cond || decide (f.depth < q.length + List.length []))
    rw [decide_eq_false hnot, Bool.or_false]
  | cons x xs ih =>
    intro f q hrep how
    have hstep : (tu_fifo_write f x).1 = true ∧
        fifoRep (tu_fifo_write f x).2 (owPush f.depth q x) ∧
        (tu_fifo_write f x).2.overflow_cond
          = (f.overflow_cond || decide (f.depth < q.length + 1)) ∧
        (tu_fifo_write f x).2.depth = f.depth ∧
        (tu_fifo_write f x).2.overwritable = true ∧
        (tu_fifo_write f x).2.rd_mode = f.rd_mode := by
      rcases Nat.lt_or_ge q.length f.depth with hlt | hge
      · obtain ⟨h1, h2⟩ := fifoRep_write f q x hrep hlt
        have hop : owPush f.depth q x = q ++ [x] := by rw [owPush, if_pos hlt]
        have hnot : ¬ (f.depth < q.length + 1) := by omega
        refine ⟨by rw [h1], ?_, ?_, ?_, ?_, ?_⟩
        · rw [hop, h1]
          exact h2
        · rw [h1, decide_eq_false hnot, Bool.or_false]
          rfl
        · rw [h1]
          rfl
        · rw [h1]
          exact how
        · rw [h1]
          rfl
      · have heq : q.length = f.depth := by
          have := hrep.2.2.1
          omega
        obtain ⟨h1, h2⟩ := fifoRep_write_full_ow f q x hrep heq how
        have hop : owPush f.depth q x = q.tail ++ [x] := by
          rw [owPush, if_neg (by omega)]
        refine ⟨by rw [h1], ?_, ?_, ?_, ?_, ?_⟩
        · rw [hop]
          exact h2
        · rw [h1, decide_eq_true (show f.depth < q.length + 1 by omega), Bool.or_true]
          rfl
        · rw [h1]
          rfl
        · rw [h1]
          exact how
        · rw [h1]
          rfl
    obtain ⟨hw1, hrep1, hfl1, hdp1, how1, hrm1⟩ := hstep
    have hih := ih (tu_fifo_write f x).2 (owPush f.depth q x) hrep1 how1
    obtain ⟨hc, hrep2, hfl, hdp, how2, hrm⟩ := hih
    have hql : (owPush f.depth q x).length = q.length + 1 ∨
        ((owPush f.depth q x).length = q.length ∧ q.length = f.depth) := by
      rw [owPush]
      rcases Nat.lt_or_ge q.length f.depth with hlt | hge
      · left
        rw [if_pos hlt, List.length_append, List.length_singleton]
      · right
        have heq : q.length = f.depth := by
          have := hrep.2.2.1
          omega
        have hqne : q ≠ [] := by
          intro hnil
          rw [hnil] at heq
          simp at heq
          have := hrep.1
          omega
        constructor
        · rw [if_neg (by omega), List.length_append, List.length_tail,
            List.length_singleton]
          have hpos : 0 < q.length := List.length_pos.mpr hqne
          omega
        · exact heq
    refine ⟨?_, ?_, ?_, ?_, ?_, ?_⟩
    · show (if (tu_fifo_write f x).1 then 1 else 0)
          + (writeCount (tu_fifo_write f x).2 xs).1 = (x :: xs).length
      rw [hw1, if_pos rfl, hc, List.length_cons]
      omega
    · show fifoRep (writeCount (tu_fifo_write f x).2 xs).2
        (List.foldl (owPush f.depth) q (x :: xs))
      rw [List.foldl_cons]
      rw [hdp1] at hrep2
      exact hrep2
    · show (writeCount (tu_fifo_write f x).2 xs).2.overflow_cond
        = (f.overflow_cond || decide (f.depth < q.length + (x :: xs).length))
      rw [hfl, hfl1, hdp1, Bool.or_assoc, ← Bool.decide_or, List.length_cons]
      rcases hql with hq1 | ⟨hq2, hq3⟩
      · rw [hq1]
        have harg : (f.depth < q.length + 1 ∨ f.depth < q.length + 1 + xs.length)
            ↔ (f.depth < q.length + (xs.length + 1)) := by
          constructor
          · intro hh
            omega
          · intro hh
            omega
        rw [decide_eq_decide.mpr harg]
      · rw [hq2]
        have harg : (f.depth < q.length + 1 ∨ f.depth < q.length + xs.length)
            ↔ (f.depth < q.length + (xs.length + 1)) := by
          constructor
          · intro hh
            omega
          · intro hh
            omega
        rw [decide_eq_decide.mpr harg]
    · show (writeCount (tu_fifo_write f x).2 xs).2.depth = f.depth
      rw [hdp, hdp1]
    · exact how2
    · show (writeCount (tu_fifo_write f x).2 xs).2.rd_mode = f.rd_mode
      rw [hrm, hrm1]

/-- Filling an empty queue with at most dep items never discards. -/
lemma owPush_fold_fill (dep : Nat) (src : Nat → Item) :
    ∀ k, k ≤ dep →
      List.foldl (owPush dep) [] ((List.range k).map src) = (List.range k).map src := by
  intro k
  induction k with
  | zero =>
    intro _
    rfl
  | succ m ih =>
    intro hk
    rw [List.range_succ, List.map_append, List.foldl_append, ih (by omega)]
    show owPush dep ((List.range m).map src) (src m) = _
    rw [owPush, if_pos (by simp; omega)]
    rfl

/-- Pushing dep+1 items into an empty queue of capacity dep keeps exactly
the last dep of them, in order. -/
lemma owPush_overfill (dep : Nat) (hd : 0 < dep) (src : Nat → Item) :
    List.foldl (owPush dep) [] ((List.range (dep + 1)).map src)
      = (List.range dep).map (fun i => src (i + 1)) := by
  rw [List.range_succ, List.map_append, List.foldl_append,
    owPush_fold_fill dep src dep le_rfl]
  show owPush dep ((List.range dep).map src) (src dep) = _
  rw [owPush, if_neg (by simp)]
  obtain ⟨m, hm⟩ : ∃ m, dep = m + 1 := ⟨dep - 1, by omega⟩
  subst hm
  have hrhs : (List.range (m + 1)).map (fun i => src (i + 1))
      = (List.range m).map (fun i => src (i + 1)) ++ [src (m + 1)] := by
    rw [List.range_succ, List.map_append]
    rfl
  rw [hrhs, List.range_succ_eq_map, List.map_cons, List.tail_cons, List.map_map]
  rfl


/-- Reading n items delivers the first n entries of the abstract queue and
leaves the rest represented. -/
lemma fifoRep_read_n (n : Nat) : ∀ (f : tu_fifo_t) (q : List Item), fifoRep f q →
    (tu_fifo_read_n f n).1 = q.take n ∧
    fifoRep (tu_fifo_read_n f n).2 (q.drop n) := by
  induction n with
  | zero =>
    intro f q h
    exact ⟨rfl, by simpa using h⟩
  | succ m ih =>
    intro f q h
    cases q with
    | nil =>
      have hcnt : tu_fifo_count f = 0 := by simpa using fifoRep_count f [] h
      rw [tu_fifo_read_n, fifoRep_read_empty f hcnt]
      exact ⟨rfl, by simpa using h⟩
    | cons y t =>
      obtain ⟨h1, h2⟩ := fifoRep_read f (y :: t) h (List.cons_ne_nil y t)
      have hih := ih { f with rd_idx := (f.rd_idx + 1) % (2 * f.depth) } t
        (show fifoRep _ t from h2)
      rw [tu_fifo_read_n, h1]
      constructor
      · show (y :: t).getD 0 0
            :: (tu_fifo_read_n { f with rd_idx := (f.rd_idx + 1) % (2 * f.depth) } m).1
          = (y :: t).take (m + 1)
        rw [getD_cons_zero, List.take_succ_cons, hih.1]
      · show fifoRep
          (tu_fifo_read_n { f with rd_idx := (f.rd_idx + 1) % (2 * f.depth) } m).2
          ((y :: t).drop (m + 1))
        rw [List.drop_succ_cons]
        exact hih.2

/-- Helper for the byte-level bound on linear runs. -/
lemma mul_bound (a b dep i : Nat) (h : a + b ≤ dep) : a * i + b * i ≤ dep * i := by
  have h2 := Nat.mul_le_mul_right i h
  rw [Nat.add_mul] at h2
  exact h2

/-! Concrete fixture states used by the witness theorems. -/

/-- An unconfigured all-zero instance, as a static tu_fifo_t with no
initializer. -/
def fifoZero : tu_fifo_t :=
  { buffer := fun _ => 0, depth := 0, item_size := 0, overwritable := false,
    non_used_index_space := 0, max_pointer_idx := 0, wr_idx := 0, rd_idx := 0,
    wr_mode := TU_FIFO_COPY_INC, rd_mode := TU_FIFO_COPY_INC, overflow_cond := false }

/-- A caller-supplied zeroed storage area. -/
def testBuf : Nat → Item := fun _ => 0

/-- An empty non-overwritable FIFO of depth 2 (as laid out by TU_FIFO_DEF
for a two-slot one-byte-item FIFO). -/
def F1 : tu_fifo_t :=
  { buffer := fun _ => 0, depth := 2, item_size := 1, overwritable := false,
    non_used_index_space := 65532, max_pointer_idx := 3, wr_idx := 0, rd_idx := 0,
    wr_mode := TU_FIFO_COPY_INC, rd_mode := TU_FIFO_COPY_INC, overflow_cond := false }

/-- The configured state produced by a successful tu_fifo_config call. -/
def F2 : tu_fifo_t := (tu_fifo_config fifoZero (some testBuf) 3 1 false).2

/-- A full non-overwritable FIFO of depth 2 holding the items 7 and 8. -/
def F3 : tu_fifo_t :=
  { buffer := fun j => if j = 0 then 7 else 8, depth := 2, item_size := 1,
    overwritable := false, non_used_index_space := 65532, max_pointer_idx := 3,
    wr_idx := 2, rd_idx := 0,
    wr_mode := TU_FIFO_COPY_INC, rd_mode := TU_FIFO_COPY_INC, overflow_cond := false }

/-- An empty overwritable FIFO of depth 2. -/
def F4 : tu_fifo_t :=
  { buffer := fun _ => 0, depth := 2, item_size := 1, overwritable := true,
    non_used_index_space := 65532, max_pointer_idx := 3, wr_idx := 0, rd_idx := 0,
    wr_mode := TU_FIFO_COPY_INC, rd_mode := TU_FIFO_COPY_INC, overflow_cond := false }

/-- Source items for the batch-write witnesses. -/
def C4src : Nat → Item := fun i => 10 + i

/-- An empty non-overwritable FIFO of depth 4 with default copy modes. -/
def F5 : tu_fifo_t :=
  { buffer := fun _ => 0, depth := 4, item_size := 1, overwritable := false,
    non_used_index_space := 65528, max_pointer_idx := 7, wr_idx := 0, rd_idx := 0,
    wr_mode := TU_FIFO_COPY_INC, rd_mode := TU_FIFO_COPY_INC, overflow_cond := false }

/-- Source items for the copy-mode counterexample. -/
def C5src : Nat → Item := fun i => 10 + i

/-- The trace write 5, write 7, read, read. -/
def C1ops : List FifoOp :=
  [FifoOp.opWrite 5, FifoOp.opWrite 7, FifoOp.opRead, FifoOp.opRead]

/-! The claims. -/

/-- C1: for every sequence of single-item writes (tu_fifo_write) and reads
(tu_fifo_read) on a configured FIFO starting empty, in which the number of
outstanding (written but not read) items never exceeds depth and reads only
consume outstanding items, the reads return exactly the written items in
the order they were written (the first numReads of them), and afterwards
tu_fifo_count equals the number of writes minus the number of reads. -/
theorem C1_fifo_ordering (f : tu_fifo_t) (ops : List FifoOp)
    (hrep : fifoRep f []) (hleg : legalB f.depth 0 ops = true) :
    (runFifo f ops).1 = (writtenItems ops).take (numReads ops) ∧
    tu_fifo_count (runFifo f ops).2 = numWrites ops - numReads ops := by
  have h := runFifo_rep ops f [] hrep hleg
  obtain ⟨h1, h2⟩ := h
  rw [List.nil_append] at h1 h2
  refine ⟨h1, ?_⟩
  rw [fifoRep_count _ _ h2, List.length_drop, writtenItems_length]

/-- C1 witness: the trace write 5, write 7, read, read on an empty depth-2
FIFO. -/
theorem C1_fifo_ordering_witness :
    (runFifo F1 C1ops).1 = (writtenItems C1ops).take (numReads C1ops) ∧
    tu_fifo_count (runFifo F1 C1ops).2 = numWrites C1ops - numReads C1ops :=
  C1_fifo_ordering F1 C1ops
    ⟨by decide, by decide, by decide, rfl, fun i hi => absurd hi (by simp)⟩
    (by decide)

/-- C2: every state reachable from a successfully configured instance by
the write, read, peek and clear operations keeps both indices in the
double range 0 .. 2*depth-1 (peeks do not change the state at all in this
embedding), and its occupied count stays between 0 and depth. -/
theorem C2_index_invariant (finit f0 g : tu_fifo_t) (b : Nat → Item)
    (d s : Nat) (ow : Bool)
    (hcfg : tu_fifo_config finit (some b) d s ow = (true, f0))
    (hR : Reached f0 g) :
    g.wr_idx ≤ 2 * g.depth - 1 ∧ g.rd_idx ≤ 2 * g.depth - 1 ∧
    tu_fifo_count g ≤ g.depth := by
  have h0 : ∃ q, fifoRep f0 q := ⟨[], fifoRep_config finit f0 b d s ow hcfg⟩
  obtain ⟨q, hq⟩ := Reached_rep f0 g hR h0
  have hd := hq.1
  have hrd := hq.2.1
  have hwr := fifoRep_wr_lt g q hq
  have hcnt := fifoRep_count g q hq
  have hlen := hq.2.2.1
  omega

/-- C2 witness: the freshly configured depth-3 instance itself. -/
theorem C2_index_invariant_witness :
    F2.wr_idx ≤ 2 * F2.depth - 1 ∧ F2.rd_idx ≤ 2 * F2.depth - 1 ∧
    tu_fifo_count F2 ≤ F2.depth :=
  C2_index_invariant fifoZero F2 F2 testBuf 3 1 false rfl (Reached.refl F2)

/-- C3: on a configured non-overwritable FIFO whose occupied count equals
depth, tu_fifo_write returns false and returns the state unchanged in every
field. -/
theorem C3_full_write_rejected (f : tu_fifo_t) (x : Item)
    (hfull : tu_fifo_count f = f.depth) (how : f.overwritable = false) :
    tu_fifo_write f x = (false, f) := by
  rw [tu_fifo_write, if_pos hfull, how]
  simp

/-- C3 witness: writing 9 into the full depth-2 FIFO holding 7 and 8. -/
theorem C3_full_write_rejected_witness : tu_fifo_write F3 9 = (false, F3) :=
  C3_full_write_rejected F3 9 rfl rfl

/-- C4: on a configured overwritable FIFO of depth D starting empty, with
the default incrementing source addressing, writing D+1 items through
tu_fifo_write_n returns D+1, afterwards tu_fifo_overflowed reports true,
and reading D items back yields exactly the last D items written, in
order. -/
theorem C4_overwritable_overflow (f0 : tu_fifo_t) (src : Nat → Item)
    (hrep : fifoRep f0 []) (how : f0.overwritable = true)
    (hmode : f0.rd_mode = TU_FIFO_COPY_INC) :
    (tu_fifo_write_n f0 src (f0.depth + 1)).1 = f0.depth + 1 ∧
    tu_fifo_overflowed (tu_fifo_write_n f0 src (f0.depth + 1)).2 = true ∧
    (tu_fifo_read_n (tu_fifo_write_n f0 src (f0.depth + 1)).2 f0.depth).1
      = (List.range f0.depth).map (fun i => src (i + 1)) := by
  have hd : 0 < f0.depth := hrep.1
  have hxs : (List.range (f0.depth + 1)).map (fun i => src (srcAddr f0.rd_mode i))
      = (List.range (f0.depth + 1)).map src := by
    rw [hmode]
    rfl
  rw [write_n_eq_writeCount, hxs]
  obtain ⟨hc, hrep2, hfl, hdp, how2, hrm⟩ :=
    writeCount_ow ((List.range (f0.depth + 1)).map src) f0 [] hrep how
  have hlenxs : ((List.range (f0.depth + 1)).map src).length = f0.depth + 1 := by simp
  refine ⟨?_, ?_, ?_⟩
  · rw [hc]
    exact hlenxs
  · rw [tu_fifo_overflowed]
    have hflag :
        (writeCount f0 ((List.range (f0.depth + 1)).map src)).2.overflow_cond = true := by
      rw [hfl, hlenxs,
        decide_eq_true (show f0.depth < List.length ([] : List Item) + (f0.depth + 1) by simp),
        Bool.or_true]
    rw [hflag, Bool.true_or]
  · rw [owPush_overfill f0.depth hd src] at hrep2
    have hread := fifoRep_read_n f0.depth _ _ hrep2
    rw [hread.1]
    have hlenq : ((List.range f0.depth).map (fun i => src (i + 1))).length = f0.depth := by
      simp
    rw [List.take_of_length_le (le_of_eq hlenq)]

/-- C4 witness: the empty overwritable depth-2 FIFO receiving the three
items 10, 11, 12 and reading back 11, 12. -/
theorem C4_overwritable_overflow_witness :
    (tu_fifo_write_n F4 C4src (F4.depth + 1)).1 = F4.depth + 1 ∧
    tu_fifo_overflowed (tu_fifo_write_n F4 C4src (F4.depth + 1)).2 = true ∧
    (tu_fifo_read_n (tu_fifo_write_n F4 C4src (F4.depth + 1)).2 F4.depth).1
      = (List.range F4.depth).map (fun i => C4src (i + 1)) :=
  C4_overwritable_overflow F4 C4src
    ⟨by decide, by decide, by decide, rfl, fun i hi => absurd hi (by simp)⟩
    rfl rfl

/-- C5 counterexample: tu_fifo_write_n does not honor the mode installed by
tu_fifo_set_copy_mode_write. With wr_mode set to TU_FIFO_COPY_CST and
rd_mode left at the default TU_FIFO_COPY_INC, a batch write of two items
stores the item fetched from source address 1 (value 11) in slot 1, not the
item at the constant source address 0 (value 10): the elements are not all
read from the same source address, refuting the claim on this input. -/
theorem C5_copy_mode_counterexample :
    (tu_fifo_set_copy_mode_write F5 TU_FIFO_COPY_CST).wr_mode = TU_FIFO_COPY_CST ∧
    (tu_fifo_write_n (tu_fifo_set_copy_mode_write F5 TU_FIFO_COPY_CST) C5src 2).2.buffer 1
      = C5src 1 ∧
    C5src 1 ≠ C5src 0 :=
  ⟨rfl, rfl, by decide⟩

/-- C5 amended: tu_fifo_write_n honors the copy mode installed by
tu_fifo_set_copy_mode_read (the header comment on tusb_fifo.h line 160:
rd_mode determines how the pointer read from is modified when writing into
the FIFO by tu_fifo_write_n): with that mode set to TU_FIFO_COPY_CST, every
element appended by tu_fifo_write_n is read from the same constant source
address, so the batch behaves as if the source were the constant function
returning the item at address 0. -/
theorem C5_copy_mode_amended (f : tu_fifo_t) (src : Nat → Item) (n : Nat) :
    tu_fifo_write_n (tu_fifo_set_copy_mode_read f TU_FIFO_COPY_CST) src n
      = tu_fifo_write_n (tu_fifo_set_copy_mode_read f TU_FIFO_COPY_CST)
          (fun _ => src 0) n := rfl

/-- C6: tu_fifo_peek returns the same result and has the same (absent)
state effect as tu_fifo_peek_at at position 0; the header defines the
inline tu_fifo_peek as exactly this call. -/
theorem C6_peek_is_peek_at_zero (f : tu_fifo_t) :
    tu_fifo_peek f = tu_fifo_peek_at f 0 := rfl

/-- C7: on a configured FIFO with indices inside the double range, the
queries relate as specified: empty exactly when the count is 0, full
exactly when the count equals depth, and remaining equals depth minus
count. The queries are pure functions of the state in this embedding, so
they leave the state unchanged by construction. -/
theorem C7_query_relations (f : tu_fifo_t) (_hd : 0 < f.depth)
    (hw : f.wr_idx < 2 * f.depth) (hr : f.rd_idx < 2 * f.depth) :
    (tu_fifo_empty f = true ↔ tu_fifo_count f = 0) ∧
    (tu_fifo_full f = true ↔ tu_fifo_count f = f.depth) ∧
    tu_fifo_remaining f = f.depth - tu_fifo_count f := by
  refine ⟨?_, ?_, rfl⟩
  · rw [tu_fifo_empty, beq_iff_eq, tu_fifo_count,
      count_char f.depth f.wr_idx f.rd_idx hw hr]
    split_ifs with hle <;> omega
  · rw [tu_fifo_full]
    exact beq_iff_eq

/-- C7 witness: the query relations on the empty depth-2 instance. -/
theorem C7_query_relations_witness :
    (tu_fifo_empty F1 = true ↔ tu_fifo_count F1 = 0) ∧
    (tu_fifo_full F1 = true ↔ tu_fifo_count F1 = F1.depth) ∧
    tu_fifo_remaining F1 = F1.depth - tu_fifo_count F1 :=
  C7_query_relations F1 (by decide) (by decide) (by decide)

/-- C8: tu_fifo_config fails, leaving every field of the instance
unchanged, exactly when the buffer is null (none) or the depth or item
size is 0; otherwise it returns true and installs the new configuration
with both indices reset to 0. -/
theorem C8_config_validation (f : tu_fifo_t) (d s : Nat) (ow : Bool) :
    tu_fifo_config f none d s ow = (false, f) ∧
    (∀ b : Nat → Item,
      tu_fifo_config f (some b) d s ow
        = if d = 0 ∨ s = 0 then (false, f)
          else (true,
            { buffer := b, depth := d, item_size := s, overwritable := ow,
              non_used_index_space := fifoNonUsedIndexSpace d,
              max_pointer_idx := fifoMaxPointerIdx d,
              wr_idx := 0, rd_idx := 0,
              wr_mode := f.wr_mode, rd_mode := f.rd_mode,
              overflow_cond := false })) :=
  ⟨rfl, fun _ => rfl⟩

/-- C9: the linear read and write info never describe a run longer than
requested or crossing the physical end of the buffer: the returned length
is at most n, the start slot plus the length stays at or below depth, and
in bytes the returned pointer plus length times item_size stays at or
below buffer plus depth times item_size. -/
theorem C9_linear_info_bounds (f : tu_fifo_t) (off n off2 n2 : Nat)
    (hd : 0 < f.depth) :
    (tu_fifo_get_linear_read_info f off n).2 ≤ n ∧
    (tu_fifo_get_linear_read_info f off n).1
        + (tu_fifo_get_linear_read_info f off n).2 ≤ f.depth ∧
    (tu_fifo_get_linear_read_info f off n).1 * f.item_size
        + (tu_fifo_get_linear_read_info f off n).2 * f.item_size
      ≤ f.depth * f.item_size ∧
    (tu_fifo_get_linear_write_info f off2 n2).2 ≤ n2 ∧
    (tu_fifo_get_linear_write_info f off2 n2).1
        + (tu_fifo_get_linear_write_info f off2 n2).2 ≤ f.depth ∧
    (tu_fifo_get_linear_write_info f off2 n2).1 * f.item_size
        + (tu_fifo_get_linear_write_info f off2 n2).2 * f.item_size
      ≤ f.depth * f.item_size := by
  have hs1 : (f.rd_idx + off) % f.depth < f.depth := Nat.mod_lt _ hd
  have hs2 : (f.wr_idx + off2) % f.depth < f.depth := Nat.mod_lt _ hd
  simp only [tu_fifo_get_linear_read_info, tu_fifo_get_linear_write_info]
  split_ifs with h1 h2 <;>
    exact ⟨by omega, by omega, mul_bound _ _ _ _ (by omega), by omega, by omega,
      mul_bound _ _ _ _ (by omega)⟩

/-- C9 witness: the bounds at the full depth-2 FIFO for a requested span of
three items at offset 0 and two items at offset 1. -/
theorem C9_linear_info_bounds_witness :
    (tu_fifo_get_linear_read_info F3 0 3).2 ≤ 3 ∧
    (tu_fifo_get_linear_read_info F3 0 3).1
        + (tu_fifo_get_linear_read_info F3 0 3).2 ≤ F3.depth ∧
    (tu_fifo_get_linear_read_info F3 0 3).1 * F3.item_size
        + (tu_fifo_get_linear_read_info F3 0 3).2 * F3.item_size
      ≤ F3.depth * F3.item_size ∧
    (tu_fifo_get_linear_write_info F3 1 2).2 ≤ 2 ∧
    (tu_fifo_get_linear_write_info F3 1 2).1
        + (tu_fifo_get_linear_write_info F3 1 2).2 ≤ F3.depth ∧
    (tu_fifo_get_linear_write_info F3 1 2).1 * F3.item_size
        + (tu_fifo_get_linear_write_info F3 1 2).2 * F3.item_size
      ≤ F3.depth * F3.item_size :=
  C9_linear_info_bounds F3 0 3 1 2 (by decide)

/-- C10: for every depth, the TU_FIFO_DEF fields max_pointer_idx and
non_used_index_space sum to 65535 modulo 2^16, and max_pointer_idx is the
uint16_t truncation of 2*depth-1; in particular for depth above 32768 the
stored max_pointer_idx wraps and falls below depth, while for depth from 1
to 32768 it is exactly 2*depth-1, so the double-range index scheme only
holds up to depth 32768. -/
theorem C10_macro_index_fields (d e c s : Nat) (ow : Bool)
    (he1 : 32768 < e) (he2 : e ≤ 65535) (hc1 : 1 ≤ c) (hc2 : c ≤ 32768) :
    ((TU_FIFO_DEF d s ow).max_pointer_idx
        + (TU_FIFO_DEF d s ow).non_used_index_space) % 65536 = 65535 ∧
    (TU_FIFO_DEF d s ow).max_pointer_idx = ((2 * (d : Int) - 1) % 65536).toNat ∧
    (TU_FIFO_DEF e s ow).max_pointer_idx < e ∧
    (TU_FIFO_DEF c s ow).max_pointer_idx = 2 * c - 1 := by
  refine ⟨?_, ?_, ?_, ?_⟩
  · show (fifoMaxPointerIdx d + fifoNonUsedIndexSpace d) % 65536 = 65535
    simp only [fifoMaxPointerIdx, fifoNonUsedIndexSpace]
    omega
  · show fifoMaxPointerIdx d = ((2 * (d : Int) - 1) % 65536).toNat
    simp only [fifoMaxPointerIdx]
    omega
  · show fifoMaxPointerIdx e < e
    simp only [fifoMaxPointerIdx]
    omega
  · show fifoMaxPointerIdx c = 2 * c - 1
    simp only [fifoMaxPointerIdx]
    omega

/-- C10 witness: depth 5 for the truncation identities, depth 40000 for the
wrapped regime, depth 7 for the exact regime. -/
theorem C10_macro_index_fields_witness :
    ((TU_FIFO_DEF 5 1 false).max_pointer_idx
        + (TU_FIFO_DEF 5 1 false).non_used_index_space) % 65536 = 65535 ∧
    (TU_FIFO_DEF 5 1 false).max_pointer_idx = ((2 * (5 : Int) - 1) % 65536).toNat ∧
    (TU_FIFO_DEF 40000 1 false).max_pointer_idx < 40000 ∧
    (TU_FIFO_DEF 7 1 false).max_pointer_idx = 2 * 7 - 1 :=
  C10_macro_index_fields 5 40000 7 1 false (by decide) (by decide) (by decide) (by decide)
